import Mathlib

/-!
Verification of the Mijnlieff solver (Rust sources: `board.rs`, `game.rs`,
`hand.rs`, `solver.rs`, `status.rs`, `main.rs`).

The Rust code is shallowly embedded: `u16` boards and `u8` hand counters
become `Nat` with explicit `% 256` where `u8` wrap-around matters, and the
recursive solver becomes a fuel-indexed function returning `Option` (fuel
exhaustion is `none`; the Rust function has no fuel and simply diverges on
the pathological states that would exhaust any fuel).

The crate's `tile.rs` (the `Tile` enumeration's geometry method
`get_unavailable`) is not among the provided sources; it is modelled from
the spec as an opaque parameter `geom` (see `Tile` and `GeomOk` below).
-/

/-- Victory status, from `status.rs`. -/
inductive Status where
  | Win : Status
  | Draw : Status
  | Loss : Status
deriving DecidableEq, Repr

/-- The `Not` implementation for `Status` from `status.rs`:
Win and Loss swap, Draw is fixed. -/
def Status.negate : Status → Status
  | Status.Win => Status.Loss
  | Status.Draw => Status.Draw
  | Status.Loss => Status.Win

/-- Modelled from the spec: the `Tile` enumeration from the missing `tile.rs`,
"one of four placeable piece kinds (named Puller, Pusher, Straight, Diagonal)"
with discriminants 0 to 3 (per the comment in `hand.rs`). Its geometry method
`get_unavailable` is modelled as an explicit function parameter `geom`
throughout this file, since the spec treats that table as an opaque external
collaborator. -/
inductive Tile where
  | Puller : Tile
  | Pusher : Tile
  | Straight : Tile
  | Diagonal : Tile
deriving DecidableEq, Repr

namespace Hand

end Hand

/-- A player's hand, from `hand.rs`: an array of four `u8` counters indexed by
the `Tile` discriminant. Counters are embedded as `Nat`; the arithmetic done
on them below wraps at 256 exactly as Rust release-mode `u8` does. -/
structure Hand where
  puller : Nat
  pusher : Nat
  straight : Nat
  diagonal : Nat
deriving DecidableEq, Repr

/-- `self.0[tile as usize]`: the counter for a tile. -/
def Hand.count : Hand → Tile → Nat
  | h, Tile.Puller => h.puller
  | h, Tile.Pusher => h.pusher
  | h, Tile.Straight => h.straight
  | h, Tile.Diagonal => h.diagonal

/-- `Hand::default()`: two of each tile. -/
def Hand.default : Hand := ⟨2, 2, 2, 2⟩

/-- `Hand::is_empty`: `(self.0[0] + self.0[1] + self.0[2] + self.0[3]) == 0`.
The three `u8` additions are performed left to right, each wrapping at 256
(Rust release mode). -/
def Hand.is_empty (h : Hand) : Bool :=
  (((h.puller + h.pusher) % 256 + h.straight) % 256 + h.diagonal) % 256 == 0

/-- `Hand::has`: `self.0[tile as usize] > 0`. -/
def Hand.has (h : Hand) (t : Tile) : Bool :=
  decide (0 < h.count t)

/-- `Hand::without`: `hand.0[tile as usize] -= 1`. The `u8` decrement wraps at
256 (so a counter of 0 becomes 255 in release mode). -/
def Hand.without (h : Hand) (t : Tile) : Hand :=
  match t with
  | Tile.Puller => { h with puller := (h.puller + 255) % 256 }
  | Tile.Pusher => { h with pusher := (h.pusher + 255) % 256 }
  | Tile.Straight => { h with straight := (h.straight + 255) % 256 }
  | Tile.Diagonal => { h with diagonal := (h.diagonal + 255) % 256 }

namespace Board

/-- `Board::LINES` from `board.rs`: the 24 bit fields of the possible lines of
three squares. -/
def LINES : List Nat :=
  [0b0000000000000111,
   0b0000000000001110,
   0b0000000001110000,
   0b0000000011100000,
   0b0000011100000000,
   0b0000111000000000,
   0b0111000000000000,
   0b1110000000000000,
   0b0000000100010001,
   0b0000001000100010,
   0b0000010001000100,
   0b0000100010001000,
   0b0001000100010000,
   0b0010001000100000,
   0b0100010001000000,
   0b1000100010000000,
   0b0000010000100001,
   0b0000100001000010,
   0b0100001000010000,
   0b1000010000100000,
   0b0000000100100100,
   0b0000001001001000,
   0b0001001001000000,
   0b0010010010000000]

/-- `Board::calculate_scores`: for each of the 65536 boards in increasing
order, count (the inner `while` loop over `LINES` in index order) how many
lines are fully contained in the board. The `u8` cells cannot wrap since at
most 24 increments happen per board. -/
def calculate_scores : List Nat :=
  (List.range 65536).map (fun board =>
    LINES.foldl (fun s l => if board &&& l == l then s + 1 else s) 0)

/-- `Board::get_score`: `SCORES[self.0 as usize]`. A `u16` board value is
always in range, so the out-of-range default is never consulted. -/
def get_score (b : Nat) : Nat :=
  calculate_scores.getD b 0

/-- `Board::is_full`: `self.0 == 0b_1111_1111_1111_1111`. -/
def is_full (b : Nat) : Bool :=
  b == 0b1111111111111111

/-- `Board::is_available`: `self.0 & (1 << square) == 0`. -/
def is_available (b : Nat) (square : Nat) : Bool :=
  b &&& (1 <<< square) == 0

/-- `Board::with`: `self.0 | (1 << square)`. -/
def with_square (b : Nat) (square : Nat) : Nat :=
  b ||| (1 <<< square)

/-- `Board::merge`: bitwise union of two boards. -/
def merge (b1 b2 : Nat) : Nat := b1 ||| b2

/-- `Board::merge_3`: bitwise union of three boards. -/
def merge_3 (b1 b2 b3 : Nat) : Nat := b1 ||| b2 ||| b3

end Board

/-- `INITIAL_UNAVAILABLE` from `game.rs`: all squares except one corner
(square 0) and one edge (square 1) are initially unavailable. -/
def INITIAL_UNAVAILABLE : Nat := 0b1111111111111100

/-- The game state from `game.rs`: the current player's board and hand, the
opponent's board and hand, and the board of unavailable squares. -/
structure Game where
  board : Nat
  hand : Hand
  opponent_board : Nat
  opponent_hand : Hand
  unavailable : Nat
deriving DecidableEq, Repr

/-- `Game::default()`: empty boards, full hands, initial unavailable mask. -/
def Game.default : Game :=
  ⟨0, Hand.default, 0, Hand.default, INITIAL_UNAVAILABLE⟩

/-- `Game::is_over`: the current player's hand is empty. -/
def Game.is_over (g : Game) : Bool :=
  g.hand.is_empty

/-- `Game::get_status`: compare the two players' scores. -/
def Game.get_status (g : Game) : Status :=
  if Board.get_score g.board > Board.get_score g.opponent_board then Status.Win
  else if Board.get_score g.board < Board.get_score g.opponent_board then Status.Loss
  else Status.Draw

/-- `Game::player_must_pass`: every square is unavailable. -/
def Game.player_must_pass (g : Game) : Bool :=
  Board.is_full g.unavailable

/-- `Game::is_available`: the square is clear in the unavailable board. -/
def Game.is_available (g : Game) (square : Nat) : Bool :=
  Board.is_available g.unavailable square

/-- `Game::has`: the current hand contains the tile. -/
def Game.has (g : Game) (t : Tile) : Bool :=
  g.hand.has t

/-- `Game::with_pass`: swap perspective; the opponent may play in any
unoccupied square. -/
def Game.with_pass (g : Game) : Game :=
  ⟨g.opponent_board, g.opponent_hand, g.board, g.hand,
   Board.merge g.board g.opponent_board⟩

section Solve

variable (geom : Tile → Nat → Nat)

/-- `Game::with_move`: swap perspective, record the placed square and spent
tile, and bar the squares restricted by the played tile's geometry
(`tile.get_unavailable(square)`, here the parameter `geom`). -/
def Game.with_move (g : Game) (t : Tile) (square : Nat) : Game :=
  ⟨g.opponent_board, g.opponent_hand,
   Board.with_square g.board square,
   Hand.without g.hand t,
   Board.merge_3 g.board g.opponent_board (geom t square)⟩

end Solve

/-- `SQUARES_PREFERENCE` from `solver.rs`. -/
def SQUARES_PREFERENCE : List Nat :=
  [5, 6, 9, 10, 3, 15, 12, 0, 1, 2, 4, 7, 8, 11, 13, 14]

/-- `TILES_PREFERENCE` from `solver.rs`. -/
def TILES_PREFERENCE : List Tile :=
  [Tile.Pusher, Tile.Straight, Tile.Diagonal, Tile.Puller]

section Solver

variable (geom : Tile → Nat → Nat)

/-- The inner `for tile in TILES_PREFERENCE` loop of `solve`: `rec` is the
recursive call at the next fuel level, `st` the running best status, `games`
the analysed-games counter. `Sum.inl` is the early `return Win` (a child
solved to `Loss`), `Sum.inr` means the loop ran to completion. -/
def tileLoop (rec : Game → Nat → Option (Status × Nat)) (g : Game)
    (square : Nat) : List Tile → Status → Nat → Option ((Status × Nat) ⊕ (Status × Nat))
  | [], st, games => some (Sum.inr (st, games))
  | t :: ts, st, games =>
    if g.has t then
      match rec (g.with_move geom t square) games with
      | none => none
      | some (Status.Win, c) => tileLoop rec g square ts st c
      | some (Status.Draw, c) => tileLoop rec g square ts Status.Draw c
      | some (Status.Loss, c) => some (Sum.inl (Status.Win, c))
    else tileLoop rec g square ts st games

/-- The outer `for square in SQUARES_PREFERENCE` loop of `solve`. -/
def squareLoop (rec : Game → Nat → Option (Status × Nat)) (g : Game) :
    List Nat → Status → Nat → Option ((Status × Nat) ⊕ (Status × Nat))
  | [], st, games => some (Sum.inr (st, games))
  | sq :: sqs, st, games =>
    if g.is_available sq then
      match tileLoop geom rec g sq TILES_PREFERENCE st games with
      | none => none
      | some (Sum.inl r) => some (Sum.inl r)
      | some (Sum.inr (st', c)) => squareLoop rec g sqs st' c
    else squareLoop rec g sqs st games

/-- `solve` from `solver.rs`, with a fuel parameter making the (in general
unbounded) Rust recursion a total function: `none` means the fuel ran out.
The `Nat` argument and the second component of the result are the
`games` counter (`u64` in Rust; it only ever counts terminal positions of
one finite search, far below `2^64`, so plain `Nat` is faithful). -/
def solve : Nat → Game → Nat → Option (Status × Nat)
  | 0, _, _ => none
  | fuel + 1, g, games =>
    if g.is_over then some (g.get_status, games + 1)
    else if g.player_must_pass then
      match solve fuel g.with_pass games with
      | none => none
      | some (s, c) => some (s.negate, c)
    else
      match squareLoop geom (fun h a => solve fuel h a) g SQUARES_PREFERENCE
          Status.Loss games with
      | none => none
      | some (Sum.inl (s, c)) => some (s, c)
      | some (Sum.inr (s, c)) => some (s, c)

/-- The legal (tile, square) pairs in the exact order the solver's two nested
loops examine them: available squares in `SQUARES_PREFERENCE` order, held
tiles in `TILES_PREFERENCE` order. -/
def legalMoves (g : Game) : List (Tile × Nat) :=
  (SQUARES_PREFERENCE.filter (fun sq => g.is_available sq)).flatMap
    (fun sq => (TILES_PREFERENCE.filter (fun t => g.has t)).map (fun t => (t, sq)))

/-- Modelled from the spec (section 4.5), for comparison with `solve`: the
full minimax reference without early exit. A terminal position returns
`get_status`; a forced pass returns the negation of the pass successor's
result; otherwise the result is Win if some legal child solves to Loss,
else Draw if some legal child solves to Draw, else Loss — every branch is
examined. Fuel exhaustion anywhere gives `none`. -/
def solveRef : Nat → Game → Option Status
  | 0, _ => none
  | fuel + 1, g =>
    if g.is_over then some g.get_status
    else if g.player_must_pass then
      match solveRef fuel g.with_pass with
      | none => none
      | some s => some s.negate
    else if none ∈ (legalMoves g).map
        (fun m => solveRef fuel (g.with_move geom m.1 m.2)) then none
    else if some Status.Loss ∈ (legalMoves g).map
        (fun m => solveRef fuel (g.with_move geom m.1 m.2)) then some Status.Win
    else if some Status.Draw ∈ (legalMoves g).map
        (fun m => solveRef fuel (g.with_move geom m.1 m.2)) then some Status.Draw
    else some Status.Loss

/-- The states reachable from `Game::default()` by the solver's transitions:
a pass exactly when the solver passes (not over, must pass), and a move
exactly when the solver moves (a square from `SQUARES_PREFERENCE` that is
available, a tile that is held). -/
inductive Reachable : Game → Prop where
  | init : Reachable Game.default
  | pass (g : Game) : Reachable g → g.is_over = false → g.player_must_pass = true →
      Reachable g.with_pass
  | move (g : Game) (t : Tile) (s : Nat) : Reachable g → g.is_over = false →
      g.player_must_pass = false → s ∈ SQUARES_PREFERENCE →
      g.is_available s = true → g.has t = true →
      Reachable (g.with_move geom t s)

end Solver

/-- Modelled from the spec: the contract of the missing Tile Geometry
collaborator (`tile.rs`). Its mask is "Occupancy-Grid-shaped" (a `u16`, hence
below 2^16), and since the spec's section 3 invariant says the forbidden grid
always covers every occupied square — including the square just placed, which
`with_move` does not otherwise merge — the mask for a placement must cover
the placed square itself. -/
def GeomOk (geom : Tile → Nat → Nat) : Prop :=
  ∀ (t : Tile) (s : Nat), s < 16 → geom t s < 65536 ∧ (geom t s).testBit s = true

/-- The `u16`-range part of the Tile Geometry contract alone. -/
def GeomU16 (geom : Tile → Nat → Nat) : Prop :=
  ∀ (t : Tile) (s : Nat), s < 16 → geom t s < 65536

/-- A concrete geometry satisfying the contract, used to instantiate the
parametric theorems: the mask barring exactly the placed square. -/
def geomSelf : Tile → Nat → Nat :=
  fun _ s => 1 <<< s

/-- The number of tiles in a hand, counted without wrap-around. -/
def Hand.total (h : Hand) : Nat :=
  h.puller + h.pusher + h.straight + h.diagonal

/-- The total number of tiles remaining across both hands. -/
def Game.totalTiles (g : Game) : Nat :=
  g.hand.total + g.opponent_hand.total

/-- The number of occupied squares among the 16 board squares. -/
def bits16 (x : Nat) : Nat :=
  ((Finset.range 16).filter (fun i => x.testBit i = true)).card

/-- All counters within the starting allotment of two per tile. -/
def Hand.bounded (h : Hand) : Prop :=
  h.puller ≤ 2 ∧ h.pusher ≤ 2 ∧ h.straight ≤ 2 ∧ h.diagonal ≤ 2

/-- The structural invariant maintained by the solver's transitions: hands
never exceed the starting allotment, boards are `u16` values, and the tiles
already placed (at most one fresh square per move) account for the tiles
missing from the hands. -/
def Game.inv (g : Game) : Prop :=
  g.hand.bounded ∧ g.opponent_hand.bounded ∧
  g.board < 65536 ∧ g.opponent_board < 65536 ∧
  bits16 (g.board ||| g.opponent_board) + g.totalTiles ≤ 16

/-- The `u16` typing of a game state's three boards. -/
def Game.wf (g : Game) : Prop :=
  g.board < 65536 ∧ g.opponent_board < 65536 ∧ g.unavailable < 65536

/-- The count of the 24 line windows fully contained in an occupancy
pattern, by direct enumeration (the independent reference for `get_score`). -/
def lineCount (g : Nat) : Nat :=
  (Board.LINES.filter (fun l => g &&& l == l)).length

/-! ### Basic lemmas about the embedded operations -/

theorem foldl_count (p : Nat → Bool) (L : List Nat) : ∀ s : Nat,
    L.foldl (fun a l => if p l then a + 1 else a) s = s + (L.filter p).length := by
  induction L with
  | nil => simp
  | cons x xs ih =>
    intro s
    by_cases h : p x <;> simp [List.filter_cons, h, ih] <;> omega

theorem is_available_iff_testBit (b s : Nat) :
    Board.is_available b s = true ↔ b.testBit s = false := by
  unfold Board.is_available
  rw [Nat.one_shiftLeft, Nat.and_two_pow]
  cases h : b.testBit s <;> simp [h, (Nat.two_pow_pos s).ne']

theorem testBit_ge_16 (x i : Nat) (hx : x < 65536) (hi : 16 ≤ i) :
    x.testBit i = false := by
  refine Nat.testBit_eq_false_of_lt (lt_of_lt_of_le hx ?_)
  calc (65536 : Nat) = 2 ^ 16 := by norm_num
    _ ≤ 2 ^ i := Nat.pow_le_pow_right (by norm_num) hi

theorem hand_count_without (h : Hand) (t : Tile) :
    (h.without t).count t = (h.count t + 255) % 256 := by
  cases t <;> rfl

theorem hand_count_without_ne (h : Hand) (t t' : Tile) (hne : t' ≠ t) :
    (h.without t).count t' = h.count t' := by
  cases t <;> cases t' <;> first | rfl | exact absurd rfl hne

theorem hand_total_pos_of_not_empty (h : Hand) (he : h.is_empty = false) :
    0 < h.total := by
  unfold Hand.is_empty at he
  unfold Hand.total
  rcases Nat.eq_zero_or_pos (h.puller + h.pusher + h.straight + h.diagonal) with h0 | h0
  · exfalso
    have hp : h.puller = 0 := by omega
    have hq : h.pusher = 0 := by omega
    have hr : h.straight = 0 := by omega
    have hs : h.diagonal = 0 := by omega
    rw [hp, hq, hr, hs] at he
    simp at he
  · exact h0

theorem hand_is_empty_of_total_zero (h : Hand) (ht : h.total = 0) :
    h.is_empty = true := by
  unfold Hand.total at ht
  have hp : h.puller = 0 := by omega
  have hq : h.pusher = 0 := by omega
  have hr : h.straight = 0 := by omega
  have hs : h.diagonal = 0 := by omega
  unfold Hand.is_empty
  rw [hp, hq, hr, hs]
  rfl

theorem hand_has_iff (h : Hand) (t : Tile) : h.has t = true ↔ 0 < h.count t := by
  unfold Hand.has
  exact decide_eq_true_iff

/-! ### C3: the score table agrees with direct line enumeration -/

/-- C3: for every one of the 65536 possible 16-bit occupancy patterns, the
table lookup `Board.get_score` equals the number of the 24 line windows
fully contained in the pattern, counted by direct enumeration. -/
theorem getD_range_map (f : Nat → Nat) (n i : Nat) (h : i < n) :
    ((List.range n).map f).getD i 0 = f i := by
  rw [List.getD_eq_getElem _ _ (by simpa using h)]
  simp

theorem get_score_eq_lineCount (g : Fin 65536) :
    Board.get_score g.val = lineCount g.val := by
  unfold Board.get_score lineCount Board.calculate_scores
  rw [getD_range_map _ _ _ g.isLt, foldl_count]
  omega

/-! ### C5: `is_empty` and the wrap-around of the `u8` sum -/

/-- C5 counterexample: `is_empty` is not "all four counters are zero" for
every `u8` hand: the four `u8` additions wrap at 256, so the hand
(128, 128, 0, 0) reports empty while its first counter is 128. -/
theorem is_empty_not_iff_all_zero :
    ¬ ((Hand.mk 128 128 0 0).is_empty = true ↔
        ((Hand.mk 128 128 0 0).puller = 0 ∧ (Hand.mk 128 128 0 0).pusher = 0 ∧
         (Hand.mk 128 128 0 0).straight = 0 ∧ (Hand.mk 128 128 0 0).diagonal = 0)) := by
  decide

/-- C5 amended: for every hand whose counters sum to less than 256 — in
particular every hand reachable in play, where each counter is at most 2 —
`is_empty` returns true if and only if all four counters are zero. -/
theorem is_empty_iff_all_zero (h : Hand)
    (hsum : h.puller + h.pusher + h.straight + h.diagonal < 256) :
    h.is_empty = true ↔
      (h.puller = 0 ∧ h.pusher = 0 ∧ h.straight = 0 ∧ h.diagonal = 0) := by
  unfold Hand.is_empty
  rw [Nat.mod_eq_of_lt (by omega : h.puller + h.pusher < 256),
      Nat.mod_eq_of_lt (by omega : h.puller + h.pusher + h.straight < 256),
      Nat.mod_eq_of_lt (by omega : h.puller + h.pusher + h.straight + h.diagonal < 256)]
  simp only [beq_iff_eq]
  omega

theorem is_empty_iff_all_zero_witness :
    (2 + 2 + 2 + 2 < 256) ∧
      ((Hand.mk 2 2 2 2).is_empty = true ↔
        ((Hand.mk 2 2 2 2).puller = 0 ∧ (Hand.mk 2 2 2 2).pusher = 0 ∧
         (Hand.mk 2 2 2 2).straight = 0 ∧ (Hand.mk 2 2 2 2).diagonal = 0)) :=
  ⟨by decide, is_empty_iff_all_zero (Hand.mk 2 2 2 2) (by decide)⟩

/-! ### C7: `with_pass` swaps the two sides and resets the forbidden grid -/

/-- C7: `with_pass` swaps own/opponent board and hand exactly, and the new
forbidden grid is precisely the union of the two occupied boards — nothing
of the old forbidden grid survives. -/
theorem with_pass_swaps (p : Game) :
    (p.with_pass).board = p.opponent_board ∧
    (p.with_pass).hand = p.opponent_hand ∧
    (p.with_pass).opponent_board = p.board ∧
    (p.with_pass).opponent_hand = p.hand ∧
    (p.with_pass).unavailable = p.board ||| p.opponent_board :=
  ⟨rfl, rfl, rfl, rfl, rfl⟩

/-! ### C8: the canonical initial position -/

/-- C8: the initial position has empty boards, two of each tile in each hand,
and exactly squares 0 (the corner) and 1 (the edge square) available. -/
theorem default_game_spec :
    Game.default.board = 0 ∧ Game.default.opponent_board = 0 ∧
    Game.default.hand = Hand.mk 2 2 2 2 ∧
    Game.default.opponent_hand = Hand.mk 2 2 2 2 ∧
    (∀ s : Fin 16, Game.default.is_available s.val = true ↔ (s.val = 0 ∨ s.val = 1)) := by
  refine ⟨rfl, rfl, rfl, rfl, ?_⟩
  decide

/-! ### C6: `with_move` fields -/

/-- C6 counterexample: with no Puller in hand, `with_move` leaves the new
opponent hand with 255 Pullers (the `u8` decrement wraps), which is not the
counter "decremented by one". -/
theorem with_move_hand_wraps :
    ((Game.mk 0 (Hand.mk 0 2 2 2) 0 Hand.default INITIAL_UNAVAILABLE).with_move
        geomSelf Tile.Puller 5).opponent_hand.count Tile.Puller ≠
      (Game.mk 0 (Hand.mk 0 2 2 2) 0 Hand.default INITIAL_UNAVAILABLE).hand.count
        Tile.Puller - 1 := by
  decide

/-- C6 amended: provided the mover actually holds the tile (counter positive,
as the solver's `has` check guarantees; `u8` counters are at most 255),
`with_move` swaps perspective, sets bit `s` in the new opponent board,
decrements the played tile's counter by one leaving the others unchanged, and
sets the forbidden grid to the union of the two occupied boards and the
geometry mask for the move. -/
theorem with_move_fields (geom : Tile → Nat → Nat) (p : Game) (t : Tile) (s : Nat)
    (hpos : 0 < p.hand.count t) (hle : p.hand.count t ≤ 255) :
    (p.with_move geom t s).board = p.opponent_board ∧
    (p.with_move geom t s).hand = p.opponent_hand ∧
    (p.with_move geom t s).opponent_board = p.board ||| (1 <<< s) ∧
    (p.with_move geom t s).opponent_hand.count =
      Function.update p.hand.count t (p.hand.count t - 1) ∧
    (p.with_move geom t s).unavailable = p.board ||| p.opponent_board ||| geom t s := by
  refine ⟨rfl, rfl, rfl, ?_, rfl⟩
  funext t'
  by_cases ht : t' = t
  · subst ht
    rw [Function.update_same]
    show (p.hand.without t').count t' = p.hand.count t' - 1
    rw [hand_count_without]
    omega
  · rw [Function.update_noteq ht]
    exact hand_count_without_ne p.hand t t' ht

/-! ### Invariants along reachable states -/

theorem squares_preference_lt_16 (s : Nat) (hs : s ∈ SQUARES_PREFERENCE) : s < 16 := by
  simp [SQUARES_PREFERENCE] at hs
  omega

theorem one_shiftLeft_lt_65536 (s : Nat) (hs : s < 16) : 1 <<< s < 65536 := by
  rw [Nat.one_shiftLeft]
  calc 2 ^ s < 2 ^ 16 := Nat.pow_lt_pow_right (by norm_num) hs
    _ = 65536 := by norm_num

theorem bits16_or_single (u s : Nat) :
    bits16 (u ||| (1 <<< s)) ≤ bits16 u + 1 := by
  unfold bits16
  have hsub : (Finset.range 16).filter (fun i => (u ||| (1 <<< s)).testBit i = true) ⊆
      ((Finset.range 16).filter (fun i => u.testBit i = true)) ∪
        ((Finset.range 16).filter (fun i => (1 <<< s).testBit i = true)) := by
    intro i hi
    simp only [Finset.mem_filter, Finset.mem_union, Nat.testBit_or, Bool.or_eq_true] at hi ⊢
    tauto
  have hone : ((Finset.range 16).filter (fun i => (1 <<< s).testBit i = true)).card ≤ 1 := by
    have : (Finset.range 16).filter (fun i => (1 <<< s).testBit i = true) ⊆ {s} := by
      intro i hi
      simp only [Finset.mem_filter, Nat.one_shiftLeft, Nat.testBit_two_pow,
        decide_eq_true_eq] at hi
      simp [hi.2]
    simpa using Finset.card_le_card this
  calc ((Finset.range 16).filter (fun i => (u ||| (1 <<< s)).testBit i = true)).card
      ≤ _ := Finset.card_le_card hsub
    _ ≤ _ + _ := Finset.card_union_le _ _
    _ ≤ _ + 1 := by omega

theorem bits16_eq_16_iff (u : Nat) (hu : u < 65536) : bits16 u = 16 ↔ u = 65535 := by
  constructor
  · intro h
    unfold bits16 at h
    have hall : (Finset.range 16).filter (fun i => u.testBit i = true) = Finset.range 16 := by
      apply Finset.eq_of_subset_of_card_le (Finset.filter_subset _ _)
      simp [h]
    apply Nat.eq_of_testBit_eq
    intro i
    by_cases hi : i < 16
    · have : i ∈ (Finset.range 16).filter (fun i => u.testBit i = true) := by
        rw [hall]; simpa using hi
      simp only [Finset.mem_filter] at this
      rw [this.2, show (65535 : Nat) = 2 ^ 16 - 1 by norm_num,
        Nat.testBit_two_pow_sub_one]
      simp [hi]
    · rw [testBit_ge_16 u i hu (by omega),
        testBit_ge_16 65535 i (by norm_num) (by omega)]
  · intro h
    subst h
    decide

theorem totalTiles_pass (g : Game) : (g.with_pass).totalTiles = g.totalTiles := by
  unfold Game.totalTiles Game.with_pass
  simp [Nat.add_comm]

theorem hand_total_without (h : Hand) (t : Tile) (hb : h.bounded)
    (ht : h.has t = true) : (h.without t).total + 1 = h.total := by
  rw [hand_has_iff] at ht
  obtain ⟨h1, h2, h3, h4⟩ := hb
  cases t <;> simp only [Hand.count, Hand.without, Hand.total] at * <;> omega

theorem totalTiles_move (geom : Tile → Nat → Nat) (g : Game) (t : Tile) (s : Nat)
    (hb : g.hand.bounded) (ht : g.has t = true) :
    (g.with_move geom t s).totalTiles + 1 = g.totalTiles := by
  have h := hand_total_without g.hand t hb ht
  show g.opponent_hand.total + (g.hand.without t).total + 1 =
    g.hand.total + g.opponent_hand.total
  omega

theorem hand_bounded_without (h : Hand) (t : Tile) (hb : h.bounded)
    (ht : h.has t = true) : (h.without t).bounded := by
  rw [hand_has_iff] at ht
  obtain ⟨h1, h2, h3, h4⟩ := hb
  cases t <;> simp only [Hand.count, Hand.without, Hand.bounded] at * <;>
    refine ⟨?_, ?_, ?_, ?_⟩ <;> omega

theorem inv_init : Game.default.inv := by
  refine ⟨⟨by decide, by decide, by decide, by decide⟩,
    ⟨by decide, by decide, by decide, by decide⟩,
    by decide, by decide, ?_⟩
  show bits16 (0 ||| 0) + (Hand.default.total + Hand.default.total) ≤ 16
  have hb : bits16 (0 ||| 0) = 0 := by decide
  have hd : Hand.default.total = 8 := by decide
  omega

theorem inv_pass (g : Game) (h : g.inv) : (g.with_pass).inv := by
  obtain ⟨h1, h2, h3, h4, h5⟩ := h
  refine ⟨h2, h1, h4, h3, ?_⟩
  show bits16 (g.opponent_board ||| g.board) + (g.opponent_hand.total + g.hand.total) ≤ 16
  rw [Nat.lor_comm]
  unfold Game.totalTiles at h5
  omega

theorem inv_move (geom : Tile → Nat → Nat) (g : Game) (t : Tile) (s : Nat)
    (h : g.inv) (ht : g.has t = true) (hs : s < 16) :
    (g.with_move geom t s).inv := by
  obtain ⟨h1, h2, h3, h4, h5⟩ := h
  have e16 : (65536 : Nat) = 2 ^ 16 := by norm_num
  refine ⟨h2, hand_bounded_without g.hand t h1 ht, h4, ?_, ?_⟩
  · show g.board ||| (1 <<< s) < 65536
    have hshift : 1 <<< s < 65536 := one_shiftLeft_lt_65536 s hs
    rw [e16] at h3 hshift ⊢
    exact Nat.or_lt_two_pow h3 hshift
  · have hunion : (g.with_move geom t s).board ||| (g.with_move geom t s).opponent_board =
        (g.board ||| g.opponent_board) ||| (1 <<< s) := by
      show g.opponent_board ||| (g.board ||| (1 <<< s)) =
        (g.board ||| g.opponent_board) ||| (1 <<< s)
      apply Nat.eq_of_testBit_eq
      intro i
      simp only [Nat.testBit_or]
      cases g.board.testBit i <;> cases g.opponent_board.testBit i <;>
        cases (1 <<< s).testBit i <;> rfl
    rw [hunion]
    have hb := bits16_or_single (g.board ||| g.opponent_board) s
    have hT := totalTiles_move geom g t s h1 ht
    omega

theorem pass_must_pass_over (g : Game) (h : g.inv)
    (hp : (g.with_pass).player_must_pass = true) : (g.with_pass).is_over = true := by
  obtain ⟨h1, h2, h3, h4, h5⟩ := h
  have e16 : (65536 : Nat) = 2 ^ 16 := by norm_num
  have hp' : ((g.board ||| g.opponent_board : Nat) == 65535) = true := hp
  rw [beq_iff_eq] at hp'
  have hlt : g.board ||| g.opponent_board < 65536 := by
    rw [e16] at h3 h4 ⊢
    exact Nat.or_lt_two_pow h3 h4
  have h16 : bits16 (g.board ||| g.opponent_board) = 16 :=
    (bits16_eq_16_iff _ hlt).mpr hp'
  have hT : g.totalTiles = 0 := by omega
  show g.opponent_hand.is_empty = true
  apply hand_is_empty_of_total_zero
  unfold Game.totalTiles at hT
  omega

theorem reachable_inv (geom : Tile → Nat → Nat) (g : Game)
    (h : Reachable geom g) : g.inv := by
  induction h with
  | init => exact inv_init
  | pass g' hr _ _ ih => exact inv_pass g' ih
  | move g' t s hr _ _ hmem _ ht ih =>
    exact inv_move geom g' t s ih ht (squares_preference_lt_16 s hmem)

/-- The forbidden grid always covers the mover's own occupied board (no
geometry assumption needed: `with_move` and `with_pass` both merge the board
that becomes the next mover's own board into the new forbidden grid). -/
theorem reachable_own_sub_unavailable (geom : Tile → Nat → Nat) (g : Game)
    (h : Reachable geom g) :
    ∀ i, g.board.testBit i = true → g.unavailable.testBit i = true := by
  induction h with
  | init =>
    intro i hi
    rw [show Game.default.board = 0 from rfl, Nat.zero_testBit] at hi
    exact absurd hi (by simp)
  | pass g' hr _ _ _ =>
    intro i hi
    unfold Game.with_pass Board.merge at *
    simp only at hi ⊢
    simp [Nat.testBit_or, hi]
  | move g' t s hr _ _ _ _ _ _ =>
    intro i hi
    unfold Game.with_move Board.merge_3 at *
    simp only at hi ⊢
    simp [Nat.testBit_or, hi]

/-! ### C9: the solver's `has` / `is_available` checks protect `without` / `with` -/

/-- C9: in any state the solver can reach, the guarded calls are safe: when
`has(tile)` holds the tile's counter is positive and `without` performs a true
decrement (no `u8` underflow), and when `is_available(square)` holds the bit
for that square is clear in the mover's own board, so `with` sets a fresh
bit. -/
theorem solver_guards_protect (geom : Tile → Nat → Nat) (g : Game)
    (h : Reachable geom g) :
    (∀ t : Tile, g.has t = true →
      0 < g.hand.count t ∧ (g.hand.without t).count t + 1 = g.hand.count t) ∧
    (∀ s : Nat, g.is_available s = true →
      g.board.testBit s = false ∧ (Board.with_square g.board s).testBit s = true) := by
  have hinv := reachable_inv geom g h
  obtain ⟨hb, _, _, _, _⟩ := hinv
  constructor
  · intro t ht
    have hpos := (hand_has_iff g.hand t).mp ht
    refine ⟨hpos, ?_⟩
    rw [hand_count_without]
    obtain ⟨h1, h2, h3, h4⟩ := hb
    cases t <;> simp only [Hand.count] at * <;> omega
  · intro s hs
    have hclear : g.unavailable.testBit s = false := by
      unfold Game.is_available at hs
      exact (is_available_iff_testBit g.unavailable s).mp hs
    have hown : g.board.testBit s = false := by
      by_contra hcon
      rw [Bool.not_eq_false] at hcon
      rw [reachable_own_sub_unavailable geom g h s hcon] at hclear
      exact absurd hclear (by simp)
    refine ⟨hown, ?_⟩
    unfold Board.with_square
    simp [Nat.testBit_or, Nat.one_shiftLeft, Nat.testBit_two_pow]

theorem solver_guards_protect_witness :
    ((∀ t : Tile, Game.default.has t = true →
      0 < Game.default.hand.count t ∧
        (Game.default.hand.without t).count t + 1 = Game.default.hand.count t) ∧
    (∀ s : Nat, Game.default.is_available s = true →
      Game.default.board.testBit s = false ∧
        (Board.with_square Game.default.board s).testBit s = true)) :=
  solver_guards_protect geomSelf Game.default Reachable.init

/-! ### C4: the forbidden grid covers both occupied boards -/

/-- C4: with the Tile Geometry contract (the mask covers the placed square,
as the spec's invariant demands), every reachable state's forbidden grid is a
superset of the union of the two occupied boards; in particular the square
just placed by `with_move` is unavailable to the next mover. -/
theorem forbidden_superset (geom : Tile → Nat → Nat) (hg : GeomOk geom) (g : Game)
    (h : Reachable geom g) :
    (∀ i, (g.board ||| g.opponent_board).testBit i = true →
      g.unavailable.testBit i = true) ∧
    (∀ (t : Tile) (s : Nat), s < 16 →
      (g.with_move geom t s).is_available s = false) := by
  constructor
  · induction h with
    | init =>
      intro i hi
      rw [show Game.default.board ||| Game.default.opponent_board = 0 from rfl,
        Nat.zero_testBit] at hi
      exact absurd hi (by simp)
    | pass g' hr _ _ _ =>
      intro i hi
      have hi' : (g'.opponent_board ||| g'.board).testBit i = true := hi
      show (g'.board ||| g'.opponent_board).testBit i = true
      simp only [Nat.testBit_or, Bool.or_eq_true] at hi' ⊢
      tauto
    | move g' t s hr _ _ hmem _ _ _ =>
      intro i hi
      unfold Game.with_move Board.merge_3 Board.with_square at *
      simp only [Nat.testBit_or, Bool.or_eq_true] at hi ⊢
      rcases hi with hi | hi | hi
      · tauto
      · tauto
      · rw [Nat.one_shiftLeft, Nat.testBit_two_pow, decide_eq_true_eq] at hi
        subst hi
        exact Or.inr ((hg t s (squares_preference_lt_16 s hmem)).2)
  · intro t s hs
    unfold Game.with_move Game.is_available Board.merge_3
    simp only
    rw [Bool.eq_false_iff, Ne, is_available_iff_testBit]
    simp [Nat.testBit_or, (hg t s hs).2]

theorem forbidden_superset_witness :
    ((∀ i, (Game.default.board ||| Game.default.opponent_board).testBit i = true →
      Game.default.unavailable.testBit i = true) ∧
    (∀ (t : Tile) (s : Nat), s < 16 →
      (Game.default.with_move geomSelf t s).is_available s = false)) :=
  forbidden_superset geomSelf
    (fun t s hs => ⟨one_shiftLeft_lt_65536 s hs, by
      simp [geomSelf, Nat.one_shiftLeft, Nat.testBit_two_pow]⟩)
    Game.default Reachable.init

/-! ### C2: termination of `solve` on reachable states -/

theorem tileLoop_isSome (geom : Tile → Nat → Nat)
    (rec : Game → Nat → Option (Status × Nat)) (g : Game) (sq : Nat) :
    ∀ (ts : List Tile) (st : Status) (games : Nat),
      (∀ t ∈ ts, g.has t = true → ∀ a, (rec (g.with_move geom t sq) a).isSome = true) →
      (tileLoop geom rec g sq ts st games).isSome = true := by
  intro ts
  induction ts with
  | nil =>
    intro st games _
    simp [tileLoop]
  | cons t ts ih =>
    intro st games hall
    have htail : ∀ t' ∈ ts, g.has t' = true →
        ∀ a, (rec (g.with_move geom t' sq) a).isSome = true :=
      fun t' ht' => hall t' (by simp [ht'])
    cases ht : g.has t with
    | false => simpa [tileLoop, ht] using ih st games htail
    | true =>
      have hrec := hall t (by simp) ht games
      rw [Option.isSome_iff_exists] at hrec
      obtain ⟨⟨w, c⟩, hw⟩ := hrec
      cases w with
      | Win => simpa [tileLoop, ht, hw] using ih st c htail
      | Draw => simpa [tileLoop, ht, hw] using ih Status.Draw c htail
      | Loss => simp [tileLoop, ht, hw]

theorem squareLoop_isSome (geom : Tile → Nat → Nat)
    (rec : Game → Nat → Option (Status × Nat)) (g : Game) :
    ∀ (ss : List Nat) (st : Status) (games : Nat),
      (∀ sq ∈ ss, g.is_available sq = true → ∀ t ∈ TILES_PREFERENCE,
        g.has t = true → ∀ a, (rec (g.with_move geom t sq) a).isSome = true) →
      (squareLoop geom rec g ss st games).isSome = true := by
  intro ss
  induction ss with
  | nil =>
    intro st games _
    simp [squareLoop]
  | cons sq ss ih =>
    intro st games hall
    have htail : ∀ sq' ∈ ss, g.is_available sq' = true → ∀ t ∈ TILES_PREFERENCE,
        g.has t = true → ∀ a, (rec (g.with_move geom t sq') a).isSome = true :=
      fun sq' hsq' => hall sq' (by simp [hsq'])
    cases hav : g.is_available sq with
    | false => simpa [squareLoop, hav] using ih st games htail
    | true =>
      have hinner := tileLoop_isSome geom rec g sq TILES_PREFERENCE st games
        (fun t htm ht a => hall sq (by simp) hav t htm ht a)
      rw [Option.isSome_iff_exists] at hinner
      obtain ⟨r, hr⟩ := hinner
      rcases r with ⟨w, c⟩ | ⟨st', c⟩
      · simp [squareLoop, hav, hr]
      · simpa [squareLoop, hav, hr] using ih st' c htail

theorem solve_isSome (geom : Tile → Nat → Nat) :
    ∀ (k : Nat) (g : Game) (games : Nat), g.inv →
      (if g.is_over = true then 1
       else 2 * g.totalTiles + (if g.player_must_pass = true then 1 else 0) + 1) ≤ k →
      (solve geom k g games).isSome = true := by
  intro k
  induction k with
  | zero =>
    intro g games _ hk
    split at hk <;> omega
  | succ k ih =>
    intro g games hinv hk
    by_cases hover : g.is_over = true
    · simp [solve, hover]
    · have hoverF : g.is_over = false := by simpa using hover
      rw [if_neg (by simp [hoverF])] at hk
      have hTpos : 0 < g.totalTiles := by
        have := hand_total_pos_of_not_empty g.hand hoverF
        unfold Game.totalTiles
        omega
      by_cases hmp : g.player_must_pass = true
      · rw [if_pos hmp] at hk
        have hq : (g.with_pass).inv := inv_pass g hinv
        have hqT : (g.with_pass).totalTiles = g.totalTiles := totalTiles_pass g
        have hbound : (if (g.with_pass).is_over = true then 1
            else 2 * (g.with_pass).totalTiles +
              (if (g.with_pass).player_must_pass = true then 1 else 0) + 1) ≤ k := by
          by_cases hqo : (g.with_pass).is_over = true
          · rw [if_pos hqo]
            omega
          · rw [if_neg hqo]
            have hqmp : (g.with_pass).player_must_pass = false := by
              by_contra hcon
              rw [Bool.not_eq_false] at hcon
              exact hqo (pass_must_pass_over g hinv hcon)
            rw [if_neg (by simp [hqmp]), hqT]
            omega
        have hrec := ih (g.with_pass) games hq hbound
        rw [Option.isSome_iff_exists] at hrec
        obtain ⟨⟨s, c⟩, hsc⟩ := hrec
        simp [solve, hoverF, hmp, hsc]
      · have hmpF : g.player_must_pass = false := by simpa using hmp
        rw [if_neg (by simp [hmpF])] at hk
        have hchildren : ∀ sq ∈ SQUARES_PREFERENCE, g.is_available sq = true →
            ∀ t ∈ TILES_PREFERENCE, g.has t = true →
            ∀ a, (solve geom k (g.with_move geom t sq) a).isSome = true := by
          intro sq hsq _ t _ hht a
          have hs16 := squares_preference_lt_16 sq hsq
          have hcinv := inv_move geom g t sq hinv hht hs16
          have hcT := totalTiles_move geom g t sq hinv.1 hht
          apply ih _ _ hcinv
          by_cases hco : (g.with_move geom t sq).is_over = true
          · rw [if_pos hco]
            omega
          · rw [if_neg hco]
            split <;> omega
        have hloop := squareLoop_isSome geom (fun h a => solve geom k h a) g
          SQUARES_PREFERENCE Status.Loss games hchildren
        rw [Option.isSome_iff_exists] at hloop
        obtain ⟨r, hr⟩ := hloop
        rcases r with ⟨s, c⟩ | ⟨s, c⟩ <;> simp [solve, hoverF, hmpF, hr]

/-- C2: on every state reachable from the initial position by the solver's
legality-checked transitions, a move strictly decreases the total tiles
remaining across both hands by one, a pass successor is never again a
must-pass state unless it is already terminal, and `solve` terminates —
fuel `2 * totalTiles + 2` suffices. -/
theorem solve_terminates (geom : Tile → Nat → Nat) (g : Game) (h : Reachable geom g) :
    (∀ (t : Tile) (s : Nat), g.has t = true →
        (g.with_move geom t s).totalTiles + 1 = g.totalTiles) ∧
    ((g.with_pass).player_must_pass = true → (g.with_pass).is_over = true) ∧
    (solve geom (2 * g.totalTiles + 2) g 0).isSome = true := by
  have hinv := reachable_inv geom g h
  refine ⟨fun t s ht => totalTiles_move geom g t s hinv.1 ht,
    pass_must_pass_over g hinv, ?_⟩
  apply solve_isSome geom _ g 0 hinv
  split
  · omega
  · split <;> omega

theorem solve_terminates_witness :
    ((∀ (t : Tile) (s : Nat), Game.default.has t = true →
        (Game.default.with_move geomSelf t s).totalTiles + 1 = Game.default.totalTiles) ∧
     ((Game.default.with_pass).player_must_pass = true →
        (Game.default.with_pass).is_over = true) ∧
     (solve geomSelf (2 * Game.default.totalTiles + 2) Game.default 0).isSome = true) :=
  solve_terminates geomSelf Game.default Reachable.init

/-! ### C10: behaviour of the analysed-games counter -/

/-- Adding a starting offset to a counter result. -/
def shiftPair (a : Nat) (r : Status × Nat) : Status × Nat := (r.1, a + r.2)

/-- Adding a starting offset to a loop result. -/
def shiftSum (a : Nat) : (Status × Nat) ⊕ (Status × Nat) → (Status × Nat) ⊕ (Status × Nat)
  | Sum.inl r => Sum.inl (shiftPair a r)
  | Sum.inr r => Sum.inr (shiftPair a r)

theorem shiftSum_comp (a b : Nat) (x : (Status × Nat) ⊕ (Status × Nat)) :
    shiftSum a (shiftSum b x) = shiftSum (a + b) x := by
  rcases x with ⟨s, c⟩ | ⟨s, c⟩ <;> simp [shiftSum, shiftPair, Nat.add_assoc]

theorem tileLoop_shift (geom : Tile → Nat → Nat)
    (rec : Game → Nat → Option (Status × Nat)) (g : Game) (sq : Nat)
    (hrec : ∀ h a, rec h a = (rec h 0).map (shiftPair a)) :
    ∀ (ts : List Tile) (st : Status) (games : Nat),
      tileLoop geom rec g sq ts st games =
        (tileLoop geom rec g sq ts st 0).map (shiftSum games) := by
  intro ts
  induction ts with
  | nil =>
    intro st games
    simp [tileLoop, shiftSum, shiftPair]
  | cons t ts ih =>
    intro st games
    cases ht : g.has t with
    | false => simp only [tileLoop, ht, Bool.false_eq_true, if_false]; exact ih st games
    | true =>
      cases e : rec (g.with_move geom t sq) 0 with
      | none =>
        have he : rec (g.with_move geom t sq) games = none := by
          rw [hrec, e]; rfl
        simp [tileLoop, ht, e, he]
      | some r =>
        obtain ⟨w, c₀⟩ := r
        have he : rec (g.with_move geom t sq) games = some (w, games + c₀) := by
          rw [hrec, e]; rfl
        cases w with
        | Win =>
          simp only [tileLoop, ht, if_true, he, e]
          rw [ih st (games + c₀), ih st c₀]
          cases e2 : tileLoop geom rec g sq ts st 0 with
          | none => rfl
          | some x => simp [shiftSum_comp]
        | Draw =>
          simp only [tileLoop, ht, if_true, he, e]
          rw [ih Status.Draw (games + c₀), ih Status.Draw c₀]
          cases e2 : tileLoop geom rec g sq ts Status.Draw 0 with
          | none => rfl
          | some x => simp [shiftSum_comp]
        | Loss =>
          simp [tileLoop, ht, he, e, shiftSum, shiftPair]

theorem squareLoop_shift (geom : Tile → Nat → Nat)
    (rec : Game → Nat → Option (Status × Nat)) (g : Game)
    (hrec : ∀ h a, rec h a = (rec h 0).map (shiftPair a)) :
    ∀ (ss : List Nat) (st : Status) (games : Nat),
      squareLoop geom rec g ss st games =
        (squareLoop geom rec g ss st 0).map (shiftSum games) := by
  intro ss
  induction ss with
  | nil =>
    intro st games
    simp [squareLoop, shiftSum, shiftPair]
  | cons sq ss ih =>
    intro st games
    cases hav : g.is_available sq with
    | false => simp only [squareLoop, hav, Bool.false_eq_true, if_false]; exact ih st games
    | true =>
      rw [squareLoop, squareLoop, if_pos hav, if_pos hav,
        tileLoop_shift geom rec g sq hrec TILES_PREFERENCE st games]
      cases e : tileLoop geom rec g sq TILES_PREFERENCE st 0 with
      | none => rfl
      | some r =>
        rcases r with ⟨w, c₀⟩ | ⟨st₂, c₀⟩
        · simp [shiftSum, shiftPair]
        · have hred : Option.map (shiftSum games) (some (Sum.inr (st₂, c₀))) =
              some (Sum.inr (st₂, games + c₀)) := rfl
          rw [hred]
          show squareLoop geom rec g ss st₂ (games + c₀) =
            Option.map (shiftSum games) (squareLoop geom rec g ss st₂ c₀)
          rw [ih st₂ (games + c₀), ih st₂ c₀]
          cases e2 : squareLoop geom rec g ss st₂ 0 with
          | none => rfl
          | some x => simp [shiftSum_comp]

theorem solve_shift (geom : Tile → Nat → Nat) :
    ∀ (k : Nat) (g : Game) (a : Nat),
      solve geom k g a = (solve geom k g 0).map (shiftPair a) := by
  intro k
  induction k with
  | zero => intro g a; rfl
  | succ k ih =>
    intro g a
    by_cases hover : g.is_over = true
    · simp [solve, hover, shiftPair]
    · have hoverF : g.is_over = false := by simpa using hover
      by_cases hmp : g.player_must_pass = true
      · cases e : solve geom k g.with_pass 0 with
        | none =>
          have he : solve geom k g.with_pass a = none := by rw [ih, e]; rfl
          simp [solve, hoverF, hmp, e, he]
        | some r =>
          obtain ⟨s₀, c₀⟩ := r
          have he : solve geom k g.with_pass a = some (s₀, a + c₀) := by
            rw [ih, e]; rfl
          simp [solve, hoverF, hmp, e, he, shiftPair]
      · have hmpF : g.player_must_pass = false := by simpa using hmp
        have hloop := squareLoop_shift geom (fun h b => solve geom k h b) g
          (fun h b => ih h b) SQUARES_PREFERENCE Status.Loss a
        simp only [solve, hoverF, hmpF, Bool.false_eq_true, if_false]
        rw [hloop]
        cases e : squareLoop geom (fun h b => solve geom k h b) g
            SQUARES_PREFERENCE Status.Loss 0 with
        | none => rfl
        | some r => rcases r with ⟨s₀, c₀⟩ | ⟨s₀, c₀⟩ <;> simp [shiftSum, shiftPair]

theorem solve_mono (geom : Tile → Nat → Nat) (k : Nat) (g : Game) (a : Nat)
    (s : Status) (c : Nat) (h : solve geom k g a = some (s, c)) : a ≤ c := by
  rw [solve_shift] at h
  cases e : solve geom k g 0 with
  | none => rw [e] at h; exact absurd h (by simp)
  | some r =>
    rw [e] at h
    obtain ⟨s₀, c₀⟩ := r
    simp [shiftPair] at h
    omega

/-- The games counter carried by a loop result. -/
def sumCounter : (Status × Nat) ⊕ (Status × Nat) → Nat
  | Sum.inl r => r.2
  | Sum.inr r => r.2

theorem tileLoop_mono (geom : Tile → Nat → Nat)
    (rec : Game → Nat → Option (Status × Nat)) (g : Game) (sq : Nat)
    (hmono : ∀ h a o, rec h a = some o → a ≤ o.2) :
    ∀ (ts : List Tile) (st : Status) (games : Nat) r,
      tileLoop geom rec g sq ts st games = some r → games ≤ sumCounter r := by
  intro ts
  induction ts with
  | nil =>
    intro st games r h
    simp only [tileLoop, Option.some.injEq] at h
    subst h
    exact Nat.le_refl games
  | cons t ts ih =>
    intro st games r h
    cases ht : g.has t with
    | false =>
      rw [tileLoop, if_neg (by simp [ht])] at h
      exact ih st games r h
    | true =>
      rw [tileLoop, if_pos ht] at h
      cases e : rec (g.with_move geom t sq) games with
      | none => rw [e] at h; exact absurd h (by simp)
      | some o =>
        obtain ⟨w, c'⟩ := o
        have hle : games ≤ c' := hmono _ _ _ e
        rw [e] at h
        cases w with
        | Win => exact le_trans hle (ih st c' r h)
        | Draw => exact le_trans hle (ih Status.Draw c' r h)
        | Loss =>
          simp only [Option.some.injEq] at h
          subst h
          exact hle

theorem squareLoop_mono (geom : Tile → Nat → Nat)
    (rec : Game → Nat → Option (Status × Nat)) (g : Game)
    (hmono : ∀ h a o, rec h a = some o → a ≤ o.2) :
    ∀ (ss : List Nat) (st : Status) (games : Nat) r,
      squareLoop geom rec g ss st games = some r → games ≤ sumCounter r := by
  intro ss
  induction ss with
  | nil =>
    intro st games r h
    simp only [squareLoop, Option.some.injEq] at h
    subst h
    exact Nat.le_refl games
  | cons sq ss ih =>
    intro st games r h
    cases hav : g.is_available sq with
    | false =>
      rw [squareLoop, if_neg (by simp [hav])] at h
      exact ih st games r h
    | true =>
      rw [squareLoop, if_pos hav] at h
      cases e : tileLoop geom rec g sq TILES_PREFERENCE st games with
      | none => rw [e] at h; exact absurd h (by simp)
      | some r' =>
        have hle : games ≤ sumCounter r' := tileLoop_mono geom rec g sq hmono _ _ _ _ e
        rw [e] at h
        rcases r' with ⟨w, c'⟩ | ⟨st₂, c₂⟩
        · simp only [Option.some.injEq] at h
          subst h
          exact hle
        · exact le_trans hle (ih st₂ c₂ r h)

theorem tileLoop_pos (geom : Tile → Nat → Nat)
    (rec : Game → Nat → Option (Status × Nat)) (g : Game) (sq : Nat)
    (hmono : ∀ h a o, rec h a = some o → a ≤ o.2)
    (hstrict : ∀ t a o, g.has t = true →
      rec (g.with_move geom t sq) a = some o → a < o.2) :
    ∀ (ts : List Tile) (st : Status) (games : Nat) r,
      (∃ t ∈ ts, g.has t = true) →
      tileLoop geom rec g sq ts st games = some r → games < sumCounter r := by
  intro ts
  induction ts with
  | nil =>
    intro st games r hex _
    simp at hex
  | cons t ts ih =>
    intro st games r hex h
    cases ht : g.has t with
    | false =>
      rw [tileLoop, if_neg (by simp [ht])] at h
      obtain ⟨t', ht'mem, ht'⟩ := hex
      rcases List.mem_cons.mp ht'mem with rfl | htail
      · rw [ht] at ht'; exact absurd ht' (by simp)
      · exact ih st games r ⟨t', htail, ht'⟩ h
    | true =>
      rw [tileLoop, if_pos ht] at h
      cases e : rec (g.with_move geom t sq) games with
      | none => rw [e] at h; exact absurd h (by simp)
      | some o =>
        obtain ⟨w, c'⟩ := o
        have hlt : games < c' := hstrict t games (w, c') ht e
        rw [e] at h
        cases w with
        | Win => exact lt_of_lt_of_le hlt (tileLoop_mono geom rec g sq hmono ts st c' r h)
        | Draw =>
          exact lt_of_lt_of_le hlt (tileLoop_mono geom rec g sq hmono ts Status.Draw c' r h)
        | Loss =>
          simp only [Option.some.injEq] at h
          subst h
          exact hlt

theorem squareLoop_pos (geom : Tile → Nat → Nat)
    (rec : Game → Nat → Option (Status × Nat)) (g : Game)
    (hmono : ∀ h a o, rec h a = some o → a ≤ o.2)
    (htiles : ∃ t ∈ TILES_PREFERENCE, g.has t = true) :
    ∀ (ss : List Nat),
      (∀ t sq a o, sq ∈ ss → g.is_available sq = true → g.has t = true →
        rec (g.with_move geom t sq) a = some o → a < o.2) →
      ∀ (st : Status) (games : Nat) r,
      (∃ sq ∈ ss, g.is_available sq = true) →
      squareLoop geom rec g ss st games = some r → games < sumCounter r := by
  intro ss
  induction ss with
  | nil =>
    intro _ st games r hex _
    simp at hex
  | cons sq ss ih =>
    intro hstrict st games r hex h
    have hstrictTail : ∀ t sq' a o, sq' ∈ ss → g.is_available sq' = true →
        g.has t = true → rec (g.with_move geom t sq') a = some o → a < o.2 :=
      fun t sq' a o hm => hstrict t sq' a o (by simp [hm])
    cases hav : g.is_available sq with
    | false =>
      rw [squareLoop, if_neg (by simp [hav])] at h
      obtain ⟨sq', hmem, hav'⟩ := hex
      rcases List.mem_cons.mp hmem with rfl | htail
      · rw [hav] at hav'; exact absurd hav' (by simp)
      · exact ih hstrictTail st games r ⟨sq', htail, hav'⟩ h
    | true =>
      rw [squareLoop, if_pos hav] at h
      have hstrictHead : ∀ t a o, g.has t = true →
          rec (g.with_move geom t sq) a = some o → a < o.2 :=
        fun t a o => hstrict t sq a o (by simp) hav
      cases e : tileLoop geom rec g sq TILES_PREFERENCE st games with
      | none => rw [e] at h; exact absurd h (by simp)
      | some r' =>
        have hlt : games < sumCounter r' :=
          tileLoop_pos geom rec g sq hmono hstrictHead _ _ _ _ htiles e
        rw [e] at h
        rcases r' with ⟨w, c'⟩ | ⟨st₂, c₂⟩
        · simp only [Option.some.injEq] at h
          subst h
          exact hlt
        · exact lt_of_lt_of_le hlt (squareLoop_mono geom rec g hmono ss st₂ c₂ r h)

theorem wf_pass (g : Game) (h : g.wf) : (g.with_pass).wf := by
  obtain ⟨h1, h2, h3⟩ := h
  have e16 : (65536 : Nat) = 2 ^ 16 := by norm_num
  refine ⟨h2, h1, ?_⟩
  show g.board ||| g.opponent_board < 65536
  rw [e16] at h1 h2 ⊢
  exact Nat.or_lt_two_pow h1 h2

theorem wf_move (geom : Tile → Nat → Nat) (hgeom : GeomU16 geom) (g : Game)
    (t : Tile) (s : Nat) (hs : s < 16) (h : g.wf) : (g.with_move geom t s).wf := by
  obtain ⟨h1, h2, h3⟩ := h
  have e16 : (65536 : Nat) = 2 ^ 16 := by norm_num
  have hls := one_shiftLeft_lt_65536 s hs
  have hgm := hgeom t s hs
  refine ⟨h2, ?_, ?_⟩
  · show g.board ||| (1 <<< s) < 65536
    rw [e16] at h1 hls ⊢
    exact Nat.or_lt_two_pow h1 hls
  · show g.board ||| g.opponent_board ||| geom t s < 65536
    rw [e16] at h1 h2 hgm ⊢
    exact Nat.or_lt_two_pow (Nat.or_lt_two_pow h1 h2) hgm

theorem mem_squares_of_lt (i : Nat) (h : i < 16) : i ∈ SQUARES_PREFERENCE := by
  interval_cases i <;> decide

theorem not_full_exists_clear (u : Nat) (hu : u < 65536) (hne : Board.is_full u = false) :
    ∃ s, s < 16 ∧ u.testBit s = false := by
  by_contra hcon
  push_neg at hcon
  have hall : ∀ s, s < 16 → u.testBit s = true := by
    intro s hs
    have := hcon s hs
    simpa using this
  have heq : u = 65535 := by
    apply Nat.eq_of_testBit_eq
    intro i
    by_cases hi : i < 16
    · rw [hall i hi, show (65535 : Nat) = 2 ^ 16 - 1 by norm_num,
        Nat.testBit_two_pow_sub_one]
      simp [hi]
    · rw [testBit_ge_16 u i hu (by omega), testBit_ge_16 65535 i (by norm_num) (by omega)]
  rw [heq] at hne
  simp [Board.is_full] at hne

theorem hand_not_empty_has (h : Hand) (he : h.is_empty = false) :
    ∃ t ∈ TILES_PREFERENCE, h.has t = true := by
  have htot := hand_total_pos_of_not_empty h he
  unfold Hand.total at htot
  by_contra hcon
  push_neg at hcon
  have hp := hcon Tile.Puller (by decide)
  have hq := hcon Tile.Pusher (by decide)
  have hr := hcon Tile.Straight (by decide)
  have hs := hcon Tile.Diagonal (by decide)
  simp [Hand.has, Hand.count] at hp hq hr hs
  omega

theorem solve_pos (geom : Tile → Nat → Nat) (hgeom : GeomU16 geom) :
    ∀ (k : Nat) (g : Game) (a : Nat) (s : Status) (c : Nat), g.wf →
      solve geom k g a = some (s, c) → a < c := by
  intro k
  induction k with
  | zero =>
    intro g a s c _ h
    exact absurd h (by simp [solve])
  | succ k ih =>
    intro g a s c hwf h
    by_cases hover : g.is_over = true
    · rw [solve, if_pos hover] at h
      simp only [Option.some.injEq, Prod.mk.injEq] at h
      omega
    · have hoverF : g.is_over = false := by simpa using hover
      by_cases hmp : g.player_must_pass = true
      · rw [solve, if_neg (by simp [hoverF]), if_pos hmp] at h
        cases e : solve geom k g.with_pass a with
        | none => rw [e] at h; exact absurd h (by simp)
        | some r =>
          obtain ⟨s₀, c₀⟩ := r
          rw [e] at h
          simp only [Option.some.injEq, Prod.mk.injEq] at h
          have := ih g.with_pass a s₀ c₀ (wf_pass g hwf) e
          omega
      · have hmpF : g.player_must_pass = false := by simpa using hmp
        rw [solve, if_neg (by simp [hoverF]), if_neg (by simp [hmpF])] at h
        have hmono : ∀ h' a' (o : Status × Nat),
            solve geom k h' a' = some o → a' ≤ o.2 :=
          fun h' a' o ho => solve_mono geom k h' a' o.1 o.2 ho
        have hstrict : ∀ t sq a' (o : Status × Nat), sq ∈ SQUARES_PREFERENCE →
            g.is_available sq = true → g.has t = true →
            solve geom k (g.with_move geom t sq) a' = some o → a' < o.2 :=
          fun t sq a' o hmem _ _ ho =>
            ih (g.with_move geom t sq) a' o.1 o.2
              (wf_move geom hgeom g t sq (squares_preference_lt_16 sq hmem) hwf) ho
        have htiles : ∃ t ∈ TILES_PREFERENCE, g.has t = true :=
          hand_not_empty_has g.hand hoverF
        have hsquares : ∃ sq ∈ SQUARES_PREFERENCE, g.is_available sq = true := by
          have hfull : Board.is_full g.unavailable = false := hmpF
          obtain ⟨s', hs16, hbit⟩ := not_full_exists_clear g.unavailable hwf.2.2 hfull
          exact ⟨s', mem_squares_of_lt s' hs16, (is_available_iff_testBit _ _).mpr hbit⟩
        cases e : squareLoop geom (fun h' a' => solve geom k h' a') g
            SQUARES_PREFERENCE Status.Loss a with
        | none => rw [e] at h; exact absurd h (by simp)
        | some r =>
          have hlt : a < sumCounter r :=
            squareLoop_pos geom (fun h' a' => solve geom k h' a') g hmono htiles
              SQUARES_PREFERENCE hstrict Status.Loss a r hsquares e
          rw [e] at h
          rcases r with ⟨s₀, c₀⟩ | ⟨s₀, c₀⟩ <;>
            (simp only [Option.some.injEq, Prod.mk.injEq] at h
             simp only [sumCounter] at hlt
             omega)

/-- A terminal position used to exercise the solver theorems on a concrete
input: both hands are empty, so `solve` returns immediately. -/
def gameOverEx : Game :=
  ⟨0, Hand.mk 0 0 0 0, 0, Hand.mk 0 0 0 0, INITIAL_UNAVAILABLE⟩

theorem gameOverEx_status : gameOverEx.get_status = Status.Draw := by
  show (if Board.get_score 0 > Board.get_score 0 then Status.Win
    else if Board.get_score 0 < Board.get_score 0 then Status.Loss
    else Status.Draw) = Status.Draw
  rw [if_neg (lt_irrefl _), if_neg (lt_irrefl _)]

theorem solve_gameOverEx (a : Nat) :
    solve geomSelf 1 gameOverEx a = some (Status.Draw, a + 1) := by
  rw [solve, if_pos (by decide), gameOverEx_status]

/-- C10: whenever `solve` returns on a well-formed (`u16`-typed) state, the
games counter has strictly increased, and the increase `c - games` is
independent of the starting counter value — the counter is only ever
incremented, once per terminal position evaluated, in the `is_over` branch;
moreover a non-terminal, non-pass state always offers at least one available
square and at least one held tile, so some branch reaches a terminal
position. -/
theorem solve_counter_spec (geom : Tile → Nat → Nat) (hgeom : GeomU16 geom)
    (k : Nat) (g : Game) (hwf : g.wf) (games : Nat) (s : Status) (c : Nat)
    (h : solve geom k g games = some (s, c)) :
    games < c ∧ solve geom k g 0 = some (s, c - games) ∧
    (g.is_over = false → g.player_must_pass = false →
      (∃ sq ∈ SQUARES_PREFERENCE, g.is_available sq = true) ∧
      (∃ t ∈ TILES_PREFERENCE, g.has t = true)) := by
  refine ⟨solve_pos geom hgeom k g games s c hwf h, ?_, ?_⟩
  · rw [solve_shift] at h
    cases e : solve geom k g 0 with
    | none => rw [e] at h; exact absurd h (by simp)
    | some r =>
      rw [e] at h
      obtain ⟨s₀, c₀⟩ := r
      simp only [Option.map_some', shiftPair, Option.some.injEq, Prod.mk.injEq] at h
      obtain ⟨rfl, h2⟩ := h
      have : c - games = c₀ := by omega
      rw [this]
  · intro hoverF hmpF
    constructor
    · have hfull : Board.is_full g.unavailable = false := hmpF
      obtain ⟨s', hs16, hbit⟩ := not_full_exists_clear g.unavailable hwf.2.2 hfull
      exact ⟨s', mem_squares_of_lt s' hs16, (is_available_iff_testBit _ _).mpr hbit⟩
    · exact hand_not_empty_has g.hand hoverF

theorem solve_counter_spec_witness :
    (GeomU16 geomSelf ∧ gameOverEx.wf ∧
      solve geomSelf 1 gameOverEx 5 = some (Status.Draw, 6)) ∧
    (5 < 6 ∧ solve geomSelf 1 gameOverEx 0 = some (Status.Draw, 6 - 5) ∧
      (gameOverEx.is_over = false → gameOverEx.player_must_pass = false →
        (∃ sq ∈ SQUARES_PREFERENCE, gameOverEx.is_available sq = true) ∧
        (∃ t ∈ TILES_PREFERENCE, gameOverEx.has t = true))) :=
  ⟨⟨fun t s hs => one_shiftLeft_lt_65536 s hs, ⟨by decide, by decide, by decide⟩,
      solve_gameOverEx 5⟩,
   solve_counter_spec geomSelf (fun t s hs => one_shiftLeft_lt_65536 s hs) 1 gameOverEx
     ⟨by decide, by decide, by decide⟩ 5 Status.Draw 6 (solve_gameOverEx 5)⟩

/-! ### C1: the early-exit solver agrees with the full-scan reference -/

theorem mem_legalMoves (g : Game) (t : Tile) (sq : Nat) :
    (t, sq) ∈ legalMoves g ↔
      (sq ∈ SQUARES_PREFERENCE ∧ g.is_available sq = true ∧
       t ∈ TILES_PREFERENCE ∧ g.has t = true) := by
  unfold legalMoves
  simp only [List.mem_flatMap, List.mem_filter, List.mem_map, Prod.mk.injEq]
  constructor
  · rintro ⟨sq', ⟨hsqm, hsqa⟩, t', ⟨htm, hta⟩, ht, hsq⟩
    subst ht
    subst hsq
    exact ⟨hsqm, hsqa, htm, hta⟩
  · rintro ⟨hsqm, hsqa, htm, hta⟩
    exact ⟨sq, ⟨hsqm, hsqa⟩, t, ⟨htm, hta⟩, rfl, rfl⟩

theorem tileLoop_agree_inl (geom : Tile → Nat → Nat) (f : Nat) (g : Game) (sq : Nat)
    (HA : ∀ h a s c s', solve geom f h a = some (s, c) →
      solveRef geom f h = some s' → s = s') :
    ∀ (ts : List Tile) (st : Status) (games : Nat) (w : Status) (c : Nat),
      (∀ t ∈ ts, g.has t = true →
        ∃ rt, solveRef geom f (g.with_move geom t sq) = some rt) →
      tileLoop geom (fun h a => solve geom f h a) g sq ts st games =
        some (Sum.inl (w, c)) →
      w = Status.Win ∧ ∃ t ∈ ts, g.has t = true ∧
        solveRef geom f (g.with_move geom t sq) = some Status.Loss := by
  intro ts
  induction ts with
  | nil =>
    intro st games w c _ h
    simp [tileLoop] at h
  | cons t ts ih =>
    intro st games w c HR h
    have HRtail : ∀ t' ∈ ts, g.has t' = true →
        ∃ rt, solveRef geom f (g.with_move geom t' sq) = some rt :=
      fun t' ht' => HR t' (by simp [ht'])
    cases ht : g.has t with
    | false =>
      rw [tileLoop, if_neg (by simp [ht])] at h
      obtain ⟨hw, t', htm, hh, hl⟩ := ih st games w c HRtail h
      exact ⟨hw, t', by simp [htm], hh, hl⟩
    | true =>
      rw [tileLoop, if_pos ht] at h
      cases e : solve geom f (g.with_move geom t sq) games with
      | none => rw [e] at h; exact absurd h (by simp)
      | some o =>
        obtain ⟨wc, c'⟩ := o
        obtain ⟨rt, hrt⟩ := HR t (by simp) ht
        have hag : wc = rt := HA _ _ _ _ _ e hrt
        rw [e] at h
        cases wc with
        | Win =>
          obtain ⟨hw, t', htm, hh, hl⟩ := ih st c' w c HRtail h
          exact ⟨hw, t', by simp [htm], hh, hl⟩
        | Draw =>
          obtain ⟨hw, t', htm, hh, hl⟩ := ih Status.Draw c' w c HRtail h
          exact ⟨hw, t', by simp [htm], hh, hl⟩
        | Loss =>
          simp only [Option.some.injEq, Sum.inl.injEq, Prod.mk.injEq] at h
          exact ⟨h.1.symm, t, by simp, ht, hrt.trans (congrArg some hag.symm)⟩

theorem tileLoop_agree_inr (geom : Tile → Nat → Nat) (f : Nat) (g : Game) (sq : Nat)
    (HA : ∀ h a s c s', solve geom f h a = some (s, c) →
      solveRef geom f h = some s' → s = s') :
    ∀ (ts : List Tile) (st : Status) (games : Nat) (st' : Status) (c : Nat),
      (∀ t ∈ ts, g.has t = true →
        ∃ rt, solveRef geom f (g.with_move geom t sq) = some rt) →
      tileLoop geom (fun h a => solve geom f h a) g sq ts st games =
        some (Sum.inr (st', c)) →
      (∀ t ∈ ts, g.has t = true →
        solveRef geom f (g.with_move geom t sq) ≠ some Status.Loss) ∧
      (st' = Status.Draw ↔ (st = Status.Draw ∨ ∃ t ∈ ts, g.has t = true ∧
        solveRef geom f (g.with_move geom t sq) = some Status.Draw)) ∧
      (st' = st ∨ st' = Status.Draw) := by
  intro ts
  induction ts with
  | nil =>
    intro st games st' c _ h
    simp only [tileLoop, Option.some.injEq, Sum.inr.injEq, Prod.mk.injEq] at h
    obtain ⟨rfl, rfl⟩ := h
    refine ⟨by simp, by simp, Or.inl rfl⟩
  | cons t ts ih =>
    intro st games st' c HR h
    have HRtail : ∀ t' ∈ ts, g.has t' = true →
        ∃ rt, solveRef geom f (g.with_move geom t' sq) = some rt :=
      fun t' ht' => HR t' (by simp [ht'])
    cases ht : g.has t with
    | false =>
      rw [tileLoop, if_neg (by simp [ht])] at h
      obtain ⟨A, B, C⟩ := ih st games st' c HRtail h
      refine ⟨?_, ?_, C⟩
      · intro t' ht'm hh'
        rcases List.mem_cons.mp ht'm with rfl | htl
        · rw [ht] at hh'; exact absurd hh' (by simp)
        · exact A t' htl hh'
      · rw [B]
        constructor
        · rintro (hst | ⟨t', htl, hh', hd⟩)
          · exact Or.inl hst
          · exact Or.inr ⟨t', by simp [htl], hh', hd⟩
        · rintro (hst | ⟨t', ht'm, hh', hd⟩)
          · exact Or.inl hst
          · rcases List.mem_cons.mp ht'm with rfl | htl
            · rw [ht] at hh'; exact absurd hh' (by simp)
            · exact Or.inr ⟨t', htl, hh', hd⟩
    | true =>
      rw [tileLoop, if_pos ht] at h
      cases e : solve geom f (g.with_move geom t sq) games with
      | none => rw [e] at h; exact absurd h (by simp)
      | some o =>
        obtain ⟨wc, c'⟩ := o
        obtain ⟨rt, hrt⟩ := HR t (by simp) ht
        have hag : wc = rt := HA _ _ _ _ _ e hrt
        rw [e] at h
        cases wc with
        | Win =>
          obtain ⟨A, B, C⟩ := ih st c' st' c HRtail h
          refine ⟨?_, ?_, C⟩
          · intro t' ht'm hh'
            rcases List.mem_cons.mp ht'm with rfl | htl
            · intro hcon
              rw [hrt] at hcon
              have hrtl : rt = Status.Loss := by simpa using hcon
              exact absurd (hag.trans hrtl) (by decide)
            · exact A t' htl hh'
          · rw [B]
            constructor
            · rintro (hst | ⟨t', htl, hh', hd⟩)
              · exact Or.inl hst
              · exact Or.inr ⟨t', by simp [htl], hh', hd⟩
            · rintro (hst | ⟨t', ht'm, hh', hd⟩)
              · exact Or.inl hst
              · rcases List.mem_cons.mp ht'm with rfl | htl
                · rw [hrt] at hd
                  have hrtd : rt = Status.Draw := by simpa using hd
                  exact absurd (hag.trans hrtd) (by decide)
                · exact Or.inr ⟨t', htl, hh', hd⟩
        | Draw =>
          obtain ⟨A, B, C⟩ := ih Status.Draw c' st' c HRtail h
          have hstD : st' = Status.Draw := B.mpr (Or.inl rfl)
          refine ⟨?_, ?_, Or.inr hstD⟩
          · intro t' ht'm hh'
            rcases List.mem_cons.mp ht'm with rfl | htl
            · intro hcon
              rw [hrt] at hcon
              have hrtl : rt = Status.Loss := by simpa using hcon
              exact absurd (hag.trans hrtl) (by decide)
            · exact A t' htl hh'
          · constructor
            · intro _
              exact Or.inr ⟨t, by simp, ht, hrt.trans (congrArg some hag.symm)⟩
            · intro _
              exact hstD
        | Loss =>
          simp at h

theorem squareLoop_agree_inl (geom : Tile → Nat → Nat) (f : Nat) (g : Game)
    (HA : ∀ h a s c s', solve geom f h a = some (s, c) →
      solveRef geom f h = some s' → s = s') :
    ∀ (ss : List Nat) (st : Status) (games : Nat) (w : Status) (c : Nat),
      (∀ sq ∈ ss, g.is_available sq = true → ∀ t ∈ TILES_PREFERENCE,
        g.has t = true → ∃ rt, solveRef geom f (g.with_move geom t sq) = some rt) →
      squareLoop geom (fun h a => solve geom f h a) g ss st games =
        some (Sum.inl (w, c)) →
      w = Status.Win ∧ ∃ sq ∈ ss, g.is_available sq = true ∧
        ∃ t ∈ TILES_PREFERENCE, g.has t = true ∧
          solveRef geom f (g.with_move geom t sq) = some Status.Loss := by
  intro ss
  induction ss with
  | nil =>
    intro st games w c _ h
    simp [squareLoop] at h
  | cons sq ss ih =>
    intro st games w c HR h
    have HRtail : ∀ sq' ∈ ss, g.is_available sq' = true → ∀ t ∈ TILES_PREFERENCE,
        g.has t = true → ∃ rt, solveRef geom f (g.with_move geom t sq') = some rt :=
      fun sq' hm => HR sq' (by simp [hm])
    cases hav : g.is_available sq with
    | false =>
      rw [squareLoop, if_neg (by simp [hav])] at h
      obtain ⟨hw, sq', hsm, hav', rest⟩ := ih st games w c HRtail h
      exact ⟨hw, sq', by simp [hsm], hav', rest⟩
    | true =>
      rw [squareLoop, if_pos hav] at h
      have HRhead : ∀ t ∈ TILES_PREFERENCE, g.has t = true →
          ∃ rt, solveRef geom f (g.with_move geom t sq) = some rt :=
        fun t htm hta => HR sq (by simp) hav t htm hta
      cases e : tileLoop geom (fun h a => solve geom f h a) g sq
          TILES_PREFERENCE st games with
      | none => rw [e] at h; exact absurd h (by simp)
      | some r' =>
        rw [e] at h
        rcases r' with ⟨w', c'⟩ | ⟨st₂, c₂⟩
        · simp only [Option.some.injEq, Sum.inl.injEq, Prod.mk.injEq] at h
          obtain ⟨hw', rest'⟩ :=
            tileLoop_agree_inl geom f g sq HA TILES_PREFERENCE st games w' c' HRhead e
          exact ⟨h.1.symm.trans hw', sq, by simp, hav, rest'⟩
        · obtain ⟨hw, sq', hsm, hav', rest⟩ := ih st₂ c₂ w c HRtail h
          exact ⟨hw, sq', by simp [hsm], hav', rest⟩

theorem squareLoop_agree_inr (geom : Tile → Nat → Nat) (f : Nat) (g : Game)
    (HA : ∀ h a s c s', solve geom f h a = some (s, c) →
      solveRef geom f h = some s' → s = s') :
    ∀ (ss : List Nat) (st : Status) (games : Nat) (st' : Status) (c : Nat),
      (∀ sq ∈ ss, g.is_available sq = true → ∀ t ∈ TILES_PREFERENCE,
        g.has t = true → ∃ rt, solveRef geom f (g.with_move geom t sq) = some rt) →
      squareLoop geom (fun h a => solve geom f h a) g ss st games =
        some (Sum.inr (st', c)) →
      (∀ sq ∈ ss, g.is_available sq = true → ∀ t ∈ TILES_PREFERENCE,
        g.has t = true →
        solveRef geom f (g.with_move geom t sq) ≠ some Status.Loss) ∧
      (st' = Status.Draw ↔ (st = Status.Draw ∨ ∃ sq ∈ ss, g.is_available sq = true ∧
        ∃ t ∈ TILES_PREFERENCE, g.has t = true ∧
          solveRef geom f (g.with_move geom t sq) = some Status.Draw)) ∧
      (st' = st ∨ st' = Status.Draw) := by
  intro ss
  induction ss with
  | nil =>
    intro st games st' c _ h
    simp only [squareLoop, Option.some.injEq, Sum.inr.injEq, Prod.mk.injEq] at h
    obtain ⟨rfl, rfl⟩ := h
    refine ⟨by simp, by simp, Or.inl rfl⟩
  | cons sq ss ih =>
    intro st games st' c HR h
    have HRtail : ∀ sq' ∈ ss, g.is_available sq' = true → ∀ t ∈ TILES_PREFERENCE,
        g.has t = true → ∃ rt, solveRef geom f (g.with_move geom t sq') = some rt :=
      fun sq' hm => HR sq' (by simp [hm])
    cases hav : g.is_available sq with
    | false =>
      rw [squareLoop, if_neg (by simp [hav])] at h
      obtain ⟨A, B, C⟩ := ih st games st' c HRtail h
      refine ⟨?_, ?_, C⟩
      · intro sq' hm hav' t htm hh
        rcases List.mem_cons.mp hm with rfl | htl
        · rw [hav] at hav'; exact absurd hav' (by simp)
        · exact A sq' htl hav' t htm hh
      · rw [B]
        constructor
        · rintro (hst | ⟨sq', htl, hav', t', htm, hh, hd⟩)
          · exact Or.inl hst
          · exact Or.inr ⟨sq', by simp [htl], hav', t', htm, hh, hd⟩
        · rintro (hst | ⟨sq', hm, hav', t', htm, hh, hd⟩)
          · exact Or.inl hst
          · rcases List.mem_cons.mp hm with rfl | htl
            · rw [hav] at hav'; exact absurd hav' (by simp)
            · exact Or.inr ⟨sq', htl, hav', t', htm, hh, hd⟩
    | true =>
      rw [squareLoop, if_pos hav] at h
      have HRhead : ∀ t ∈ TILES_PREFERENCE, g.has t = true →
          ∃ rt, solveRef geom f (g.with_move geom t sq) = some rt :=
        fun t htm hta => HR sq (by simp) hav t htm hta
      cases e : tileLoop geom (fun h a => solve geom f h a) g sq
          TILES_PREFERENCE st games with
      | none => rw [e] at h; exact absurd h (by simp)
      | some r' =>
        rw [e] at h
        rcases r' with ⟨w', c'⟩ | ⟨st₂, c₂⟩
        · exact absurd h (by simp)
        · obtain ⟨A2, B2, C2⟩ :=
            tileLoop_agree_inr geom f g sq HA TILES_PREFERENCE st games st₂ c₂ HRhead e
          obtain ⟨A3, B3, C3⟩ := ih st₂ c₂ st' c HRtail h
          refine ⟨?_, ?_, ?_⟩
          · intro sq' hm hav' t htm hh
            rcases List.mem_cons.mp hm with rfl | htl
            · exact A2 t htm hh
            · exact A3 sq' htl hav' t htm hh
          · constructor
            · intro hst'
              rcases B3.mp hst' with h2 | ⟨sq', htl, hav', t', htm, hh, hd⟩
              · rcases B2.mp h2 with hst | ⟨t', htm, hh, hd⟩
                · exact Or.inl hst
                · exact Or.inr ⟨sq, by simp, hav, t', htm, hh, hd⟩
              · exact Or.inr ⟨sq', by simp [htl], hav', t', htm, hh, hd⟩
            · rintro (hst | ⟨sq', hm, hav', t', htm, hh, hd⟩)
              · exact B3.mpr (Or.inl (B2.mpr (Or.inl hst)))
              · rcases List.mem_cons.mp hm with rfl | htl
                · exact B3.mpr (Or.inl (B2.mpr (Or.inr ⟨t', htm, hh, hd⟩)))
                · exact B3.mpr (Or.inr ⟨sq', htl, hav', t', htm, hh, hd⟩)
          · rcases C3 with h3 | h3
            · rcases C2 with h2 | h2
              · exact Or.inl (h3.trans h2)
              · exact Or.inr (h3.trans h2)
            · exact Or.inr h3

/-- C1: wherever both the early-exit solver and the full-scan minimax
reference return a result (the same fuel bounds both recursions), the
statuses agree: early return on the first Loss-for-the-opponent child yields
the same result as scanning every branch. -/
theorem solve_eq_solveRef (geom : Tile → Nat → Nat) :
    ∀ (fuel : Nat) (g : Game) (games : Nat) (s : Status) (c : Nat) (s' : Status),
      solve geom fuel g games = some (s, c) → solveRef geom fuel g = some s' →
      s = s' := by
  intro fuel
  induction fuel with
  | zero =>
    intro g games s c s' h _
    exact absurd h (by simp [solve])
  | succ f ih =>
    intro g games s c s' hs hr
    by_cases hover : g.is_over = true
    · rw [solve, if_pos hover] at hs
      rw [solveRef, if_pos hover] at hr
      simp only [Option.some.injEq, Prod.mk.injEq] at hs
      simp only [Option.some.injEq] at hr
      rw [← hs.1, ← hr]
    · have hoverF : g.is_over = false := by simpa using hover
      by_cases hmp : g.player_must_pass = true
      · rw [solve, if_neg (by simp [hoverF]), if_pos hmp] at hs
        rw [solveRef, if_neg (by simp [hoverF]), if_pos hmp] at hr
        cases e : solve geom f g.with_pass games with
        | none => rw [e] at hs; exact absurd hs (by simp)
        | some o =>
          obtain ⟨s₀, c₀⟩ := o
          rw [e] at hs
          cases e' : solveRef geom f g.with_pass with
          | none => rw [e'] at hr; exact absurd hr (by simp)
          | some r₀ =>
            rw [e'] at hr
            simp only [Option.some.injEq, Prod.mk.injEq] at hs hr
            have hag : s₀ = r₀ := ih g.with_pass games s₀ c₀ r₀ e e'
            rw [← hs.1, ← hr, hag]
      · have hmpF : g.player_must_pass = false := by simpa using hmp
        rw [solve, if_neg (by simp [hoverF]), if_neg (by simp [hmpF])] at hs
        rw [solveRef, if_neg (by simp [hoverF]), if_neg (by simp [hmpF])] at hr
        by_cases hnone : (none : Option Status) ∈ (legalMoves g).map
            (fun m => solveRef geom f (g.with_move geom m.1 m.2))
        · rw [if_pos hnone] at hr
          exact absurd hr (by simp)
        · rw [if_neg hnone] at hr
          have HRall : ∀ sq ∈ SQUARES_PREFERENCE, g.is_available sq = true →
              ∀ t ∈ TILES_PREFERENCE, g.has t = true →
              ∃ rt, solveRef geom f (g.with_move geom t sq) = some rt := by
            intro sq hsqm hsqa t htm hta
            cases e : solveRef geom f (g.with_move geom t sq) with
            | some rt => exact ⟨rt, rfl⟩
            | none =>
              exact absurd (List.mem_map.mpr ⟨(t, sq),
                (mem_legalMoves g t sq).mpr ⟨hsqm, hsqa, htm, hta⟩, e⟩) hnone
          cases eloop : squareLoop geom (fun h a => solve geom f h a) g
              SQUARES_PREFERENCE Status.Loss games with
          | none => rw [eloop] at hs; exact absurd hs (by simp)
          | some r =>
            rw [eloop] at hs
            rcases r with ⟨w, c₂⟩ | ⟨st', c₂⟩
            · simp only [Option.some.injEq, Prod.mk.injEq] at hs
              obtain ⟨hwin, sq', hsm, hav, t', htm, hh, hl⟩ :=
                squareLoop_agree_inl geom f g ih SQUARES_PREFERENCE Status.Loss
                  games w c₂ HRall eloop
              have hmem : (some Status.Loss) ∈ (legalMoves g).map
                  (fun m => solveRef geom f (g.with_move geom m.1 m.2)) :=
                List.mem_map.mpr ⟨(t', sq'),
                  (mem_legalMoves g t' sq').mpr ⟨hsm, hav, htm, hh⟩, hl⟩
              rw [if_pos hmem] at hr
              simp only [Option.some.injEq] at hr
              rw [← hs.1, hwin, ← hr]
            · simp only [Option.some.injEq, Prod.mk.injEq] at hs
              obtain ⟨A, B, C⟩ := squareLoop_agree_inr geom f g ih SQUARES_PREFERENCE
                Status.Loss games st' c₂ HRall eloop
              have hnoLoss : (some Status.Loss) ∉ (legalMoves g).map
                  (fun m => solveRef geom f (g.with_move geom m.1 m.2)) := by
                intro hcon
                obtain ⟨m, hm, hml⟩ := List.mem_map.mp hcon
                obtain ⟨hsm, hav, htm, hh⟩ := (mem_legalMoves g m.1 m.2).mp hm
                exact A m.2 hsm hav m.1 htm hh hml
              rw [if_neg hnoLoss] at hr
              by_cases hDraw : (some Status.Draw) ∈ (legalMoves g).map
                  (fun m => solveRef geom f (g.with_move geom m.1 m.2))
              · rw [if_pos hDraw] at hr
                simp only [Option.some.injEq] at hr
                obtain ⟨m, hm, hmd⟩ := List.mem_map.mp hDraw
                obtain ⟨hsm, hav, htm, hh⟩ := (mem_legalMoves g m.1 m.2).mp hm
                have hstD : st' = Status.Draw :=
                  B.mpr (Or.inr ⟨m.2, hsm, hav, m.1, htm, hh, hmd⟩)
                rw [← hs.1, hstD, ← hr]
              · rw [if_neg hDraw] at hr
                simp only [Option.some.injEq] at hr
                have hstND : st' ≠ Status.Draw := by
                  intro hcon
                  rcases B.mp hcon with hfalse | ⟨sq', hsm, hav, t', htm, hh, hd⟩
                  · exact absurd hfalse (by decide)
                  · exact hDraw (List.mem_map.mpr ⟨(t', sq'),
                      (mem_legalMoves g t' sq').mpr ⟨hsm, hav, htm, hh⟩, hd⟩)
                have hstL : st' = Status.Loss := by
                  rcases C with h1 | h1
                  · exact h1
                  · exact absurd h1 hstND
                rw [← hs.1, hstL, ← hr]

theorem solveRef_gameOverEx : solveRef geomSelf 1 gameOverEx = some Status.Draw := by
  rw [solveRef, if_pos (by decide), gameOverEx_status]

theorem solve_eq_solveRef_witness :
    (solve geomSelf 1 gameOverEx 0 = some (Status.Draw, 1) ∧
     solveRef geomSelf 1 gameOverEx = some Status.Draw ∧
     (Status.Draw = Status.Draw)) :=
  ⟨solve_gameOverEx 0, solveRef_gameOverEx,
   solve_eq_solveRef geomSelf 1 gameOverEx 0 Status.Draw 1 Status.Draw
     (solve_gameOverEx 0) solveRef_gameOverEx⟩

theorem with_move_fields_witness :
    (0 < Game.default.hand.count Tile.Puller) ∧
    (Game.default.hand.count Tile.Puller ≤ 255) ∧
    ((Game.default.with_move geomSelf Tile.Puller 5).board = Game.default.opponent_board ∧
     (Game.default.with_move geomSelf Tile.Puller 5).hand = Game.default.opponent_hand ∧
     (Game.default.with_move geomSelf Tile.Puller 5).opponent_board =
       Game.default.board ||| (1 <<< 5) ∧
     (Game.default.with_move geomSelf Tile.Puller 5).opponent_hand.count =
       Function.update Game.default.hand.count Tile.Puller
         (Game.default.hand.count Tile.Puller - 1) ∧
     (Game.default.with_move geomSelf Tile.Puller 5).unavailable =
       Game.default.board ||| Game.default.opponent_board ||| geomSelf Tile.Puller 5) :=
  ⟨by decide, by decide,
   with_move_fields geomSelf Game.default Tile.Puller 5 (by decide) (by decide)⟩
